import Mathlib

/-!
# Verification of the Test-Genie edit-history tracking engine

Shallow embedding of `src/bdd-ai/extension/src/editTracker.ts` (class
`EditTracker`) and the restore handler of the BDD panel, together with
theorems settling the specification claims about them.

The filesystem the tracker reads and writes is modelled as an explicit
state (`FS`): an association list of artifact files, an association list
of persisted history records, and an environment flag saying whether
`fs.writeFileSync` fails (disk full / permission denied).  Exceptions are
modelled with `Except`.  Nondeterministic inputs (`crypto.randomUUID()`,
`new Date().toISOString()`) are passed as explicit arguments.
-/

namespace TestGenie

/-! ## SHA-256 (`crypto.createHash("sha256")` over the UTF-8 bytes) -/

/-- `2^32`, the modulus of 32-bit machine arithmetic. -/
def M32 : Nat := 4294967296

/-- 32-bit right rotation (inputs below `2^32`). -/
def rotr32 (x n : Nat) : Nat :=
  (x >>> n) ||| ((x <<< (32 - n)) % M32)

/-- 32-bit modular addition. -/
def add32 (a b : Nat) : Nat := (a + b) % M32

/-- Bitwise complement within 32 bits. -/
def not32 (x : Nat) : Nat := 4294967295 - x

/-- The SHA-256 round constants. -/
def K256 : List Nat :=
  [1116352408, 1899447441, 3049323471, 3921009573, 961987163, 1508970993, 2453635748, 2870763221,
   3624381080, 310598401, 607225278, 1426881987, 1925078388, 2162078206, 2614888103, 3248222580,
   3835390401, 4022224774, 264347078, 604807628, 770255983, 1249150122, 1555081692, 1996064986,
   2554220882, 2821834349, 2952996808, 3210313671, 3336571891, 3584528711, 113926993, 338241895,
   666307205, 773529912, 1294757372, 1396182291, 1695183700, 1986661051, 2177026350, 2456956037,
   2730485921, 2820302411, 3259730800, 3345764771, 3516065817, 3600352804, 4094571909, 275423344,
   430227734, 506948616, 659060556, 883997877, 958139571, 1322822218, 1537002063, 1747873779,
   1955562222, 2024104815, 2227730452, 2361852424, 2428436474, 2756734187, 3204031479, 3329325298]

/-- UTF-8 encoding of one Unicode code point. -/
def utf8Char (n : Nat) : List Nat :=
  if n < 128 then [n]
  else if n < 2048 then [192 + n / 64, 128 + n % 64]
  else if n < 65536 then [224 + n / 4096, 128 + (n / 64) % 64, 128 + n % 64]
  else [240 + n / 262144, 128 + (n / 4096) % 64, 128 + (n / 64) % 64, 128 + n % 64]

/-- UTF-8 byte sequence of a string. -/
def utf8Bytes (s : String) : List Nat :=
  (s.toList.map (fun c => utf8Char c.toNat)).flatten

/-- `w` bytes of `n`, big-endian. -/
def beBytes : Nat → Nat → List Nat
  | 0, _ => []
  | w + 1, n => beBytes w (n / 256) ++ [n % 256]

/-- SHA-256 message padding: `0x80`, zeros, then the 64-bit bit length. -/
def padBytes (msg : List Nat) : List Nat :=
  let L := msg.length
  msg ++ [128] ++ List.replicate ((119 - L % 64) % 64) 0 ++ beBytes 8 (8 * L)

/-- Group bytes into big-endian 32-bit words. -/
def toWords : List Nat → List Nat
  | b0 :: b1 :: b2 :: b3 :: rest =>
      (((b0 * 256 + b1) * 256 + b2) * 256 + b3) :: toWords rest
  | _ => []

/-- Extend a 16-word block to the 64-word message schedule.  The
accumulator is kept in reverse order (head = most recent word). -/
def extendSchedule : Nat → List Nat → List Nat
  | 0, acc => acc
  | n + 1, acc =>
    let w2 := acc.getD 1 0
    let w7 := acc.getD 6 0
    let w15 := acc.getD 14 0
    let w16 := acc.getD 15 0
    let s0 := (rotr32 w15 7) ^^^ (rotr32 w15 18) ^^^ (w15 >>> 3)
    let s1 := (rotr32 w2 17) ^^^ (rotr32 w2 19) ^^^ (w2 >>> 10)
    extendSchedule n ((add32 (add32 w16 s0) (add32 w7 s1)) :: acc)

/-- The eight 32-bit working variables of the compression function. -/
structure SHAState where
  a : Nat
  b : Nat
  c : Nat
  d : Nat
  e : Nat
  f : Nat
  g : Nat
  hh : Nat
deriving DecidableEq

/-- One SHA-256 compression round. -/
def shaStep (st : SHAState) (k w : Nat) : SHAState :=
  let S1 := (rotr32 st.e 6) ^^^ (rotr32 st.e 11) ^^^ (rotr32 st.e 25)
  let ch := (st.e &&& st.f) ^^^ ((not32 st.e) &&& st.g)
  let t1 := add32 (add32 (add32 st.hh S1) (add32 ch k)) w
  let S0 := (rotr32 st.a 2) ^^^ (rotr32 st.a 13) ^^^ (rotr32 st.a 22)
  let mj := (st.a &&& st.b) ^^^ (st.a &&& st.c) ^^^ (st.b &&& st.c)
  let t2 := add32 S0 mj
  ⟨add32 t1 t2, st.a, st.b, st.c, add32 st.d t1, st.e, st.f, st.g⟩

/-- Fold the 64 rounds over the `(constant, schedule-word)` pairs. -/
def foldSteps : List (Nat × Nat) → SHAState → SHAState
  | [], st => st
  | (k, w) :: rest, st => foldSteps rest (shaStep st k w)

/-- Compress one 16-word block into the running state. -/
def compressBlock (st : SHAState) (block : List Nat) : SHAState :=
  let sched := (extendSchedule 48 block.reverse).reverse
  let fin := foldSteps (K256.zip sched) st
  ⟨add32 st.a fin.a, add32 st.b fin.b, add32 st.c fin.c, add32 st.d fin.d,
   add32 st.e fin.e, add32 st.f fin.f, add32 st.g fin.g, add32 st.hh fin.hh⟩

/-- Process `n` 16-word blocks from the word list. -/
def processBlocks : Nat → SHAState → List Nat → SHAState
  | 0, st, _ => st
  | n + 1, st, ws => processBlocks n (compressBlock st (ws.take 16)) (ws.drop 16)

/-- The SHA-256 initial hash value. -/
def H0 : SHAState :=
  ⟨1779033703, 3144134277, 1013904242, 2773480762,
   1359893119, 2600822924, 528734635, 1541459225⟩

/-- Lowercase hex digit. -/
def hexDigit (n : Nat) : Char :=
  if n < 10 then Char.ofNat (48 + n) else Char.ofNat (87 + n)

/-- A 32-bit word as 8 hex characters, big-endian. -/
def hex8 (n : Nat) : String :=
  String.mk ((List.range 8).map (fun i => hexDigit ((n >>> (28 - 4 * i)) % 16)))

/-- Hex digest of the UTF-8 bytes of a string under SHA-256. -/
def sha256hex (s : String) : String :=
  let ws := toWords (padBytes (utf8Bytes s))
  let st := processBlocks (ws.length / 16) H0 ws
  hex8 st.a ++ hex8 st.b ++ hex8 st.c ++ hex8 st.d ++
  hex8 st.e ++ hex8 st.f ++ hex8 st.g ++ hex8 st.hh

/-- `EditTracker.hash`: `"sha256:" + createHash("sha256").update(content, "utf8").digest("hex")`. -/
def hash (content : String) : String :=
  "sha256:" ++ sha256hex content

/-! ## JS string primitives

Structural models of the JavaScript string operations the source uses
(`split`, `startsWith` via `path.relative`, `endsWith`, `slice`, `join`,
`path.basename`), over the character list of the string. -/

/-- `text.split(sep)` for a one-character separator. -/
def splitChar (sep : Char) : List Char → List (List Char)
  | [] => [[]]
  | c :: rest =>
    let r := splitChar sep rest
    if c = sep then [] :: r
    else
      match r with
      | [] => [[c]]
      | g :: gs => (c :: g) :: gs

/-- `text.split(sep)` returning strings. -/
def jsSplit (sep : Char) (s : String) : List String :=
  (splitChar sep s.data).map String.mk

/-- Character-list prefix test. -/
def isPrefixList : List Char → List Char → Bool
  | [], _ => true
  | _ :: _, [] => false
  | a :: as, b :: bs => a = b && isPrefixList as bs

/-- `s.startsWith(p)`. -/
def jsStartsWith (s p : String) : Bool :=
  isPrefixList p.data s.data

/-- `s.endsWith(p)`. -/
def jsEndsWith (s p : String) : Bool :=
  isPrefixList p.data.reverse s.data.reverse

/-- `s.slice(0, n)`. -/
def jsTake (s : String) (n : Nat) : String :=
  String.mk (s.data.take n)

/-- The first `n` characters removed (`path.relative` remainder). -/
def jsDrop (s : String) (n : Nat) : String :=
  String.mk (s.data.drop n)

/-- `array.join(sep)`. -/
def joinWith (sep : String) : List String → String
  | [] => ""
  | [s] => s
  | s :: s2 :: rest => s ++ sep ++ joinWith sep (s2 :: rest)

/-! ## Data model (`editTracker.ts`) -/

/-- The provenance tag of an edit (`EditSource`). -/
inductive EditSource where
  | manual_edit
  | ai_generated
  | ai_refined
  | external_edit
  | version_snapshot
deriving DecidableEq

/-- One recorded change (`EditEntry`). -/
structure EditEntry where
  id : String
  timestamp : String
  source : EditSource
  contentHashBefore : String
  contentHashAfter : String
  contentSnapshot : String
  linesAdded : Nat
  linesRemoved : Nat
  diffSummary : String
  versionTag : Option String
deriving DecidableEq

/-- The persisted record shape (`HistoryFile`). -/
structure HistoryFile where
  filePath : String
  entries : List EditEntry
deriving DecidableEq

/-- What `JSON.parse(raw) as HistoryFile` yields at runtime: the cast is
unchecked, so the `entries` field may be absent (`undefined`), modelled
as `none`. -/
structure TSHistoryFile where
  filePath : String
  entries : Option (List EditEntry)
deriving DecidableEq

/-- The raw bytes of a persisted file, classified by how `JSON.parse`
treats them: a well-formed history record, valid JSON lacking an
`entries` array, or bytes on which `JSON.parse` throws. -/
inductive FileData where
  | history (h : HistoryFile)
  | jsonNoEntries (filePath : String)
  | unparsable (raw : String)
deriving DecidableEq

/-- An exception escaping the engine. -/
inductive EngineError where
  | typeError
  | thrown (msg : String)
deriving DecidableEq

/-- The filesystem state the tracker operates on: workspace text files
(association list, path to content), persisted records under the history
root, and an environment flag saying whether `fs.writeFileSync` fails. -/
structure FS where
  features : List (String × String)
  records : List (String × FileData)
  writeFails : Bool
deriving DecidableEq

/-- First-match association lookup. -/
def lookupA {α : Type} : List (String × α) → String → Option α
  | [], _ => none
  | (k', v) :: rest, k => if k' = k then some v else lookupA rest k

/-- Association update: overwrite the first binding of `k`, or append. -/
def setA {α : Type} : List (String × α) → String → α → List (String × α)
  | [], k, v => [(k, v)]
  | (k', v') :: rest, k, v =>
      if k' = k then (k, v) :: rest else (k', v') :: setA rest k v

/-- Remove every binding of `k`. -/
def eraseA {α : Type} : List (String × α) → String → List (String × α)
  | [], _ => []
  | kv :: rest, k => if kv.1 = k then eraseA rest k else kv :: eraseA rest k

/-- `MAX_ENTRIES_PER_FILE`: the retention cap. -/
def MAX_ENTRIES_PER_FILE : Nat := 50

/-- `MAX_DIFF_LINES`: the diff-summary line cap. -/
def MAX_DIFF_LINES : Nat := 50

/-! ## Diff summarizer (`EditTracker.computeDiff`) -/

/-- Result record of `computeDiff`. -/
structure DiffResult where
  linesAdded : Nat
  linesRemoved : Nat
  summary : String
deriving DecidableEq

/-- Classification of one index pair: `(added delta, removed delta,
emitted summary lines)`; `none` models `undefined` (index past the end).
Mirrors the branch structure of the loop body in `computeDiff`. -/
def diffStep (o n : Option String) : Nat × Nat × List String :=
  match o, n with
  | none, some nv => (1, 0, ["+ " ++ nv])
  | some ov, none => (0, 1, ["- " ++ ov])
  | some ov, some nv => if ov = nv then (0, 0, []) else (1, 1, ["- " ++ ov, "+ " ++ nv])
  | none, none => (0, 0, [])

/-- The `for` loop of `computeDiff`: walk indices, accumulate counts and
summary lines, and break once `MAX_DIFF_LINES <= diffLines.length`. -/
def diffAux (ol nl : List String) : Nat → Nat → Nat → Nat → List String → Nat × Nat × List String
  | _, 0, a, r, acc => (a, r, acc)
  | i, fuel + 1, a, r, acc =>
    let s := diffStep ol[i]? nl[i]?
    let a' := a + s.1
    let r' := r + s.2.1
    let acc' := acc ++ s.2.2
    if MAX_DIFF_LINES ≤ acc'.length then (a', r', acc')
    else diffAux ol nl (i + 1) fuel a' r' acc'

/-- `computeDiff` up to the final `join`: counts and the `diffLines` list. -/
def diffLines (oldText newText : String) : Nat × Nat × List String :=
  let ol := jsSplit (Char.ofNat 10) oldText
  let nl := jsSplit (Char.ofNat 10) newText
  diffAux ol nl 0 (max ol.length nl.length) 0 0 []

/-- `EditTracker.computeDiff`. -/
def computeDiff (oldText newText : String) : DiffResult :=
  let d := diffLines oldText newText
  ⟨d.1, d.2.1, joinWith "\n" d.2.2⟩

/-! ## History store -/

/-- `EditTracker.getHistoryFilePath`: mirror the artifact's path relative
to `<ws>/bdd_tests` under `<ws>/.edit_history`, with suffix
`.history.json` (`path.relative` modelled for the descendant case). -/
def getHistoryFilePath (ws fp : String) : String :=
  let base := ws ++ "/bdd_tests/"
  let rel := if jsStartsWith fp base then jsDrop fp base.length else fp
  ws ++ "/.edit_history/" ++ rel ++ ".history.json"

/-- `path.basename`: the last `/`-separated component. -/
def basename (fp : String) : String :=
  (jsSplit (Char.ofNat 47) fp).getLastD ""

/-- The warning `readHistory` surfaces on a corrupt record. -/
def corruptWarning (fp : String) : String :=
  "Edit history for " ++ basename fp ++ " was corrupted and has been reset."

/-- `EditTracker.readHistory`: load the record at `historyPath`; a missing
file yields an empty log; `JSON.parse` failure renames the record to
`.bak`, surfaces a warning, and yields an empty log.  Returns the
(unchecked-cast) record, the possibly changed filesystem, and the
warnings surfaced. -/
def readHistory (st : FS) (historyPath filePath : String) :
    TSHistoryFile × FS × List String :=
  match lookupA st.records historyPath with
  | none => (⟨filePath, some []⟩, st, [])
  | some (.history h) => (⟨h.filePath, some h.entries⟩, st, [])
  | some (.jsonNoEntries fp) => (⟨fp, none⟩, st, [])
  | some (.unparsable raw) =>
      (⟨filePath, some []⟩,
       { st with records := setA (eraseA st.records historyPath) (historyPath ++ ".bak") (.unparsable raw) },
       [corruptWarning filePath])

/-- `EditTracker.writeHistory`: persist the record, or catch the
filesystem error and `throw new Error("Failed to write edit history")`. -/
def writeHistory (st : FS) (historyPath : String) (history : HistoryFile) :
    Except EngineError FS :=
  if st.writeFails then .error (.thrown "Failed to write edit history")
  else .ok { st with records := setA st.records historyPath (.history history) }

/-- `EditTracker.getFileHistory`: the query path; it checks
`Array.isArray(parsed.entries)` and returns `[]` on a missing file, a
parse failure, or a missing `entries` array — without renaming anything. -/
def getFileHistory (st : FS) (ws fp : String) : List EditEntry :=
  match lookupA st.records (getHistoryFilePath ws fp) with
  | none => []
  | some (.history h) => h.entries
  | some (.jsonNoEntries _) => []
  | some (.unparsable _) => []

/-! ## Edit logger (`EditTracker.logEdit`) -/

/-- The entry `logEdit` constructs (`id` is the first 8 characters of the
generated UUID, `timestamp` the current instant — both explicit inputs). -/
def mkEntry (old new : String) (source : EditSource) (versionTag : Option String)
    (uuid ts : String) : EditEntry :=
  { id := jsTake uuid 8
    timestamp := ts
    source := source
    contentHashBefore := hash old
    contentHashAfter := hash new
    contentSnapshot := new
    linesAdded := (computeDiff old new).linesAdded
    linesRemoved := (computeDiff old new).linesRemoved
    diffSummary := (computeDiff old new).summary
    versionTag := versionTag }

/-- The retention policy applied after the push: if the list exceeds
`MAX_ENTRIES_PER_FILE`, keep only the last `MAX_ENTRIES_PER_FILE`
entries (`entries.slice(-MAX_ENTRIES_PER_FILE)`). -/
def retain (es : List EditEntry) : List EditEntry :=
  if MAX_ENTRIES_PER_FILE < es.length then es.drop (es.length - MAX_ENTRIES_PER_FILE)
  else es

/-- `EditTracker.logEdit`.  Returns the new filesystem and the warnings
surfaced, or the exception that escapes (`history.entries.push` on a
record without an `entries` array throws a `TypeError`; a persistence
failure is rethrown by `writeHistory`). -/
def logEdit (st : FS) (ws filePath oldContent newContent : String)
    (source : EditSource) (versionTag : Option String) (uuid ts : String) :
    Except EngineError (FS × List String) :=
  if oldContent = newContent then .ok (st, [])
  else
    let historyPath := getHistoryFilePath ws filePath
    let r := readHistory st historyPath filePath
    let history := r.1
    let st1 := r.2.1
    let warns := r.2.2
    let entry := mkEntry oldContent newContent source versionTag uuid ts
    match history.entries with
    | none => .error .typeError
    | some es =>
      (writeHistory st1 historyPath ⟨history.filePath, retain (es ++ [entry])⟩).map
        (fun st2 => (st2, warns))

/-- The entry list stored on disk for history path `p`, as the append
path perceives it (`none` when the record lacks an `entries` array). -/
def recordEntriesAt (st : FS) (p : String) : Option (List EditEntry) :=
  match lookupA st.records p with
  | none => some []
  | some (.history h) => some h.entries
  | some (.jsonNoEntries _) => none
  | some (.unparsable _) => some []

/-! ## Snapshot reconciler -/

/-- One value of the pre-generation snapshot map. -/
structure SnapEntry where
  hash : String
  content : String
deriving DecidableEq

/-- `EditTracker.snapshotBeforeGeneration`: walk `<ws>/bdd_tests`,
record `(hash, content)` for every `.feature` file. -/
def snapshotBeforeGeneration (st : FS) (ws : String) : List (String × SnapEntry) :=
  (st.features.filter
    (fun pc => jsStartsWith pc.1 (ws ++ "/bdd_tests/") && jsEndsWith pc.1 ".feature")).map
    (fun pc => (pc.1, ⟨hash pc.2, pc.2⟩))

/-- One deferred `logEdit` invocation. -/
structure LogCall where
  filePath : String
  oldContent : String
  newContent : String
  source : EditSource
  versionTag : Option String
  uuid : String
  ts : String
deriving DecidableEq

/-- Pair each element with its position, starting from `n`. -/
def numbered {α : Type} : Nat → List α → List (Nat × α)
  | _, [] => []
  | i, x :: xs => (i, x) :: numbered (i + 1) xs

/-- The sequence of `logEdit` calls `logGenerationChanges` performs:
first the walk over the current `.feature` files (absent from the
snapshot → creation with empty before; fingerprint changed → modified;
unchanged → skipped), then the deleted files of the snapshot (empty
after).  `gen i` supplies the UUID and timestamp for the `i`-th call. -/
def generationCalls (st : FS) (ws : String) (pre : List (String × SnapEntry))
    (gen : Nat → String × String) : List LogCall :=
  let feats := st.features.filter
    (fun pc => jsStartsWith pc.1 (ws ++ "/bdd_tests/") && jsEndsWith pc.1 ".feature")
  let phase1 : List (String × String × String) := feats.filterMap (fun pc =>
    match lookupA pre pc.1 with
    | none => some (pc.1, "", pc.2)
    | some prev => if prev.hash = hash pc.2 then none else some (pc.1, prev.content, pc.2))
  let seen := feats.map (fun pc => pc.1)
  let phase2 : List (String × String × String) := pre.filterMap (fun q =>
    if q.1 ∈ seen then none else some (q.1, q.2.content, ""))
  (numbered 0 (phase1 ++ phase2)).map (fun ic =>
    ⟨ic.2.1, ic.2.2.1, ic.2.2.2, .ai_generated, none, (gen ic.1).1, (gen ic.1).2⟩)

/-- Perform a sequence of `logEdit` calls, threading the filesystem and
collecting warnings; the first escaping exception aborts the rest. -/
def applyEdits (ws : String) : FS → List LogCall → Except EngineError (FS × List String)
  | st, [] => .ok (st, [])
  | st, c :: rest =>
    match logEdit st ws c.filePath c.oldContent c.newContent c.source c.versionTag c.uuid c.ts with
    | .error e => .error e
    | .ok (st', w) => (applyEdits ws st' rest).map (fun r => (r.1, w ++ r.2))

/-- `EditTracker.logGenerationChanges`. -/
def logGenerationChanges (st : FS) (ws : String) (pre : List (String × SnapEntry))
    (gen : Nat → String × String) : Except EngineError (FS × List String) :=
  applyEdits ws st (generationCalls st ws pre gen)

/-! ## Restore handler (`BDDPanel`, `case "restoreHistory"`) -/

/-- The `restoreHistory` message handler: look the entry up by index in
the file's history, write its `contentSnapshot` back to the artifact,
and log the restore as a new edit with source `manual_edit` — passing
the literal string `"restore"` as the old content. -/
def restoreHistory (st : FS) (ws : String) (currentFilePath : Option String)
    (index : Nat) (uuid ts : String) : Except EngineError (FS × List String) :=
  match currentFilePath with
  | none => .ok (st, [])
  | some p =>
    match (getFileHistory st ws p)[index]? with
    | none => .ok (st, [])
    | some entry =>
      let st1 := { st with features := setA st.features p entry.contentSnapshot }
      logEdit st1 ws p "restore" entry.contentSnapshot .manual_edit none uuid ts

/-! ## Helper lemmas -/

theorem lookupA_setA_self {α : Type} (l : List (String × α)) (k : String) (v : α) :
    lookupA (setA l k v) k = some v := by
  induction l with
  | nil => simp [setA, lookupA]
  | cons kv rest ih =>
    by_cases h : kv.1 = k
    · simp [setA, h, lookupA]
    · simp [setA, h, lookupA, ih]

theorem lookupA_setA_ne {α : Type} (l : List (String × α)) (k k' : String) (v : α)
    (h : k' ≠ k) : lookupA (setA l k v) k' = lookupA l k' := by
  induction l with
  | nil =>
    have h2 : ¬(k = k') := fun h3 => h h3.symm
    simp [setA, lookupA, h2]
  | cons kv rest ih =>
    by_cases h1 : kv.1 = k
    · have h2 : ¬(k = k') := fun h3 => h h3.symm
      have h3 : ¬(kv.1 = k') := by rw [h1]; exact h2
      simp [setA, h1, lookupA, h2, h3]
    · by_cases h2 : kv.1 = k'
      · simp [setA, h1, lookupA, h2, h]
      · simp [setA, h1, lookupA, h2, ih]

theorem lookupA_eraseA_self {α : Type} (l : List (String × α)) (k : String) :
    lookupA (eraseA l k) k = none := by
  induction l with
  | nil => simp [eraseA, lookupA]
  | cons kv rest ih =>
    by_cases h : kv.1 = k
    · simp [eraseA, h, ih]
    · simp [eraseA, h, lookupA, ih]

theorem lookupA_eraseA_ne {α : Type} (l : List (String × α)) (k k' : String)
    (h : k' ≠ k) : lookupA (eraseA l k) k' = lookupA l k' := by
  induction l with
  | nil => simp [eraseA, lookupA]
  | cons kv rest ih =>
    by_cases h1 : kv.1 = k
    · have h3 : ¬(k = k') := fun hx => h hx.symm
      simp [eraseA, h1, lookupA, h3, ih]
    · by_cases h2 : kv.1 = k'
      · simp [eraseA, h1, lookupA, h2, h]
      · simp [eraseA, h1, lookupA, h2, ih]

/-- The retention step is truncation to the newest `MAX_ENTRIES_PER_FILE`. -/
theorem retain_eq_drop (es : List EditEntry) :
    retain es = es.drop (es.length - MAX_ENTRIES_PER_FILE) := by
  unfold retain
  by_cases h : MAX_ENTRIES_PER_FILE < es.length
  · simp [h]
  · simp [h, Nat.sub_eq_zero_of_le (Nat.le_of_not_lt h)]

theorem retain_length (es : List EditEntry) :
    (retain es).length = min es.length MAX_ENTRIES_PER_FILE := by
  rw [retain_eq_drop, List.length_drop]
  omega

theorem retain_of_le (es : List EditEntry) (h : es.length ≤ MAX_ENTRIES_PER_FILE) :
    retain es = es := by
  rw [retain_eq_drop, Nat.sub_eq_zero_of_le h, List.drop_zero]

/-- Truncating to the newest 50, appending, and truncating again is the
same as truncating the whole concatenation: eviction is oldest-first. -/
theorem retain_retain_append (xs ys : List EditEntry) :
    retain (retain xs ++ ys) = retain (xs ++ ys) := by
  rw [retain_eq_drop, retain_eq_drop, retain_eq_drop]
  by_cases h : xs.length ≤ MAX_ENTRIES_PER_FILE
  · rw [Nat.sub_eq_zero_of_le h, List.drop_zero]
  · have h1 : xs.length - MAX_ENTRIES_PER_FILE ≤ xs.length := Nat.sub_le _ _
    rw [← List.drop_append_of_le_length h1, List.drop_drop]
    congr 1
    simp only [List.length_append, List.length_drop]
    omega

theorem append_bak_ne (p : String) : ¬(p ++ ".bak" = p) := by
  intro h
  have h1 := congrArg String.length h
  rw [String.length_append] at h1
  have h2 : String.length ".bak" = 4 := rfl
  rw [h2] at h1
  omega

/-! ## `logEdit` case lemmas -/

theorem logEdit_of_missing (st : FS) (ws fp old new : String) (src : EditSource)
    (tag : Option String) (u t : String)
    (hne : old ≠ new) (hw : st.writeFails = false)
    (hrec : lookupA st.records (getHistoryFilePath ws fp) = none) :
    logEdit st ws fp old new src tag u t =
      .ok (⟨st.features,
            setA st.records (getHistoryFilePath ws fp)
              (.history ⟨fp, retain [mkEntry old new src tag u t]⟩),
            st.writeFails⟩, []) := by
  simp [logEdit, hne, readHistory, hrec, writeHistory, hw, Except.map]

theorem logEdit_of_history (st : FS) (ws fp old new : String) (src : EditSource)
    (tag : Option String) (u t fp0 : String) (es : List EditEntry)
    (hne : old ≠ new) (hw : st.writeFails = false)
    (hrec : lookupA st.records (getHistoryFilePath ws fp) = some (.history ⟨fp0, es⟩)) :
    logEdit st ws fp old new src tag u t =
      .ok (⟨st.features,
            setA st.records (getHistoryFilePath ws fp)
              (.history ⟨fp0, retain (es ++ [mkEntry old new src tag u t])⟩),
            st.writeFails⟩, []) := by
  simp [logEdit, hne, readHistory, hrec, writeHistory, hw, Except.map]

theorem logEdit_of_unparsable (st : FS) (ws fp old new : String) (src : EditSource)
    (tag : Option String) (u t raw : String)
    (hne : old ≠ new) (hw : st.writeFails = false)
    (hrec : lookupA st.records (getHistoryFilePath ws fp) = some (.unparsable raw)) :
    logEdit st ws fp old new src tag u t =
      .ok (⟨st.features,
            setA (setA (eraseA st.records (getHistoryFilePath ws fp))
                    (getHistoryFilePath ws fp ++ ".bak") (.unparsable raw))
              (getHistoryFilePath ws fp)
              (.history ⟨fp, retain [mkEntry old new src tag u t]⟩),
            st.writeFails⟩,
           [corruptWarning fp]) := by
  simp [logEdit, hne, readHistory, hrec, writeHistory, hw, Except.map]

theorem logEdit_of_jsonNoEntries (st : FS) (ws fp old new : String) (src : EditSource)
    (tag : Option String) (u t fp0 : String)
    (hne : old ≠ new)
    (hrec : lookupA st.records (getHistoryFilePath ws fp) = some (.jsonNoEntries fp0)) :
    logEdit st ws fp old new src tag u t = .error .typeError := by
  simp [logEdit, hne, readHistory, hrec]

theorem logEdit_of_writeFails (st : FS) (ws fp old new : String) (src : EditSource)
    (tag : Option String) (u t : String)
    (hne : old ≠ new) (hw : st.writeFails = true)
    (hrec : recordEntriesAt st (getHistoryFilePath ws fp) ≠ none) :
    logEdit st ws fp old new src tag u t =
      .error (.thrown "Failed to write edit history") := by
  unfold recordEntriesAt at hrec
  rcases h : lookupA st.records (getHistoryFilePath ws fp) with _ | data
  · simp [logEdit, hne, readHistory, h, writeHistory, hw, Except.map]
  · cases data with
    | history hf => simp [logEdit, hne, readHistory, h, writeHistory, hw, Except.map]
    | jsonNoEntries fp1 => rw [h] at hrec; simp at hrec
    | unparsable raw => simp [logEdit, hne, readHistory, h, writeHistory, hw, Except.map]

theorem retain_append_single (es : List EditEntry) (e : EditEntry) :
    retain (es ++ [e]) = es.drop (es.length + 1 - MAX_ENTRIES_PER_FILE) ++ [e] := by
  rw [retain_eq_drop]
  have hM : MAX_ENTRIES_PER_FILE = 50 := rfl
  have h1 : es.length + 1 - MAX_ENTRIES_PER_FILE ≤ es.length := by omega
  have h2 : (es ++ [e]).length = es.length + 1 := by simp
  rw [h2, List.drop_append_of_le_length h1]

theorem retain_singleton (e : EditEntry) : retain [e] = [e] :=
  retain_of_le _ (by simp [MAX_ENTRIES_PER_FILE])

/-! ## Claim theorems -/

/-- C1: for `oldContent ≠ newContent` (against a readable record and with
persistence succeeding), `logEdit` appends exactly one entry whose
`contentHashBefore`/`contentHashAfter` equal `hash(old)`/`hash(new)` and
whose `contentSnapshot` is the new content; the log becomes the previous
entries (less retention) followed by that entry. -/
theorem logEdit_appends_one_entry (st : FS) (ws fp old new : String)
    (src : EditSource) (tag : Option String) (u t : String) (es : List EditEntry)
    (hne : old ≠ new) (hw : st.writeFails = false)
    (hes : recordEntriesAt st (getHistoryFilePath ws fp) = some es) :
    ∃ st' warns,
      logEdit st ws fp old new src tag u t = .ok (st', warns) ∧
      recordEntriesAt st' (getHistoryFilePath ws fp) =
        some (retain (es ++ [mkEntry old new src tag u t])) ∧
      (mkEntry old new src tag u t).contentHashBefore = hash old ∧
      (mkEntry old new src tag u t).contentHashAfter = hash new ∧
      (mkEntry old new src tag u t).contentSnapshot = new ∧
      recordEntriesAt st' (getHistoryFilePath ws fp) =
        some (es.drop (es.length + 1 - MAX_ENTRIES_PER_FILE) ++ [mkEntry old new src tag u t]) ∧
      (es.length < MAX_ENTRIES_PER_FILE →
        recordEntriesAt st' (getHistoryFilePath ws fp) =
          some (es ++ [mkEntry old new src tag u t])) := by
  unfold recordEntriesAt at hes
  rcases h : lookupA st.records (getHistoryFilePath ws fp) with _ | data
  · rw [h] at hes
    have hesv : es = [] := by simpa using hes.symm
    subst hesv
    refine ⟨_, _, logEdit_of_missing st ws fp old new src tag u t hne hw h, ?_, rfl, rfl, rfl, ?_, ?_⟩
    · simp [recordEntriesAt, lookupA_setA_self]
    · simp [recordEntriesAt, lookupA_setA_self, retain_append_single, retain_singleton]
    · intro _
      simp [recordEntriesAt, lookupA_setA_self, retain_singleton]
  · cases data with
    | history hf =>
      rw [h] at hes
      have hesv : hf.entries = es := by simpa using hes
      refine ⟨_, _, logEdit_of_history st ws fp old new src tag u t hf.filePath hf.entries hne hw
        (by rw [h]) , ?_, rfl, rfl, rfl, ?_, ?_⟩
      · simp [recordEntriesAt, lookupA_setA_self, hesv]
      · simp [recordEntriesAt, lookupA_setA_self, hesv, retain_append_single]
      · intro hlen
        have h50 : (es ++ [mkEntry old new src tag u t]).length ≤ MAX_ENTRIES_PER_FILE := by
          simp
          omega
        simp [recordEntriesAt, lookupA_setA_self, hesv, retain_of_le _ h50]
    | jsonNoEntries fp1 => rw [h] at hes; simp at hes
    | unparsable raw =>
      rw [h] at hes
      have hesv : es = [] := by simpa using hes.symm
      subst hesv
      refine ⟨_, _, logEdit_of_unparsable st ws fp old new src tag u t raw hne hw h,
        ?_, rfl, rfl, rfl, ?_, ?_⟩
      · simp [recordEntriesAt, lookupA_setA_self]
      · simp [recordEntriesAt, lookupA_setA_self, retain_append_single, retain_singleton]
      · intro _
        simp [recordEntriesAt, lookupA_setA_self, retain_singleton]

/-- Witness for C1 at a concrete input: an edit of `"a"` to `"b"` on an
empty store appends exactly the constructed entry. -/
theorem logEdit_appends_one_entry_witness :
    ∃ st' warns,
      logEdit ⟨[], [], false⟩ "w" "f" "a" "b" .manual_edit none "u" "t" = .ok (st', warns) ∧
      recordEntriesAt st' (getHistoryFilePath "w" "f") =
        some (retain ([] ++ [mkEntry "a" "b" .manual_edit none "u" "t"])) ∧
      (mkEntry "a" "b" .manual_edit none "u" "t").contentHashBefore = hash "a" ∧
      (mkEntry "a" "b" .manual_edit none "u" "t").contentHashAfter = hash "b" ∧
      (mkEntry "a" "b" .manual_edit none "u" "t").contentSnapshot = "b" ∧
      recordEntriesAt st' (getHistoryFilePath "w" "f") =
        some (List.drop (List.length ([] : List EditEntry) + 1 - MAX_ENTRIES_PER_FILE)
            ([] : List EditEntry) ++
          [mkEntry "a" "b" .manual_edit none "u" "t"]) ∧
      (List.length ([] : List EditEntry) < MAX_ENTRIES_PER_FILE →
        recordEntriesAt st' (getHistoryFilePath "w" "f") =
          some (([] : List EditEntry) ++ [mkEntry "a" "b" .manual_edit none "u" "t"])) :=
  logEdit_appends_one_entry ⟨[], [], false⟩ "w" "f" "a" "b" .manual_edit none "u" "t" []
    (by decide) rfl rfl

/-- C2: when the old and new content coincide, `logEdit` is a no-op: it
returns without touching the filesystem state, produces no entry, and
surfaces no warning. -/
theorem logEdit_noop_law (st : FS) (ws fp c : String) (src : EditSource)
    (tag : Option String) (u t : String) :
    logEdit st ws fp c c src tag u t = .ok (st, []) := by
  simp [logEdit]

/-- C4: an unparsable record yields an empty log from the query path,
`readHistory` renames the record to `.bak` (it is neither deleted nor
left in place), surfaces a warning, and a subsequent `logEdit` succeeds
with a one-entry log while the backup survives. -/
theorem corruption_recovery (ws fp raw : String) (st : FS)
    (hrec : lookupA st.records (getHistoryFilePath ws fp) = some (.unparsable raw)) :
    getFileHistory st ws fp = [] ∧
    (∃ st1, readHistory st (getHistoryFilePath ws fp) fp = (⟨fp, some []⟩, st1, [corruptWarning fp]) ∧
      lookupA st1.records (getHistoryFilePath ws fp) = none ∧
      lookupA st1.records (getHistoryFilePath ws fp ++ ".bak") = some (.unparsable raw)) ∧
    (∀ old new src tag u t, old ≠ new → st.writeFails = false →
      ∃ st2, logEdit st ws fp old new src tag u t = .ok (st2, [corruptWarning fp]) ∧
        recordEntriesAt st2 (getHistoryFilePath ws fp) =
          some [mkEntry old new src tag u t] ∧
        lookupA st2.records (getHistoryFilePath ws fp ++ ".bak") = some (.unparsable raw)) := by
  have hbak : getHistoryFilePath ws fp ≠ getHistoryFilePath ws fp ++ ".bak" :=
    fun hx => append_bak_ne (getHistoryFilePath ws fp) hx.symm
  refine ⟨by simp [getFileHistory, hrec],
    ⟨⟨st.features,
      setA (eraseA st.records (getHistoryFilePath ws fp))
        (getHistoryFilePath ws fp ++ ".bak") (.unparsable raw),
      st.writeFails⟩, ?_, ?_, ?_⟩, ?_⟩
  · simp [readHistory, hrec]
  · simp only
    rw [lookupA_setA_ne _ _ _ _ hbak, lookupA_eraseA_self]
  · simp only
    rw [lookupA_setA_self]
  · intro old new src tag u t hne hw
    refine ⟨_, logEdit_of_unparsable st ws fp old new src tag u t raw hne hw hrec, ?_, ?_⟩
    · simp [recordEntriesAt, lookupA_setA_self, retain_singleton]
    · simp only
      rw [lookupA_setA_ne _ _ _ _ hbak.symm, lookupA_setA_self]

/-- Witness for C4 at a concrete input: a store whose only record is
unparsable bytes. -/
theorem corruption_recovery_witness :
    getFileHistory ⟨[], [(getHistoryFilePath "w" "f", .unparsable "oops")], false⟩ "w" "f" = [] ∧
    (∃ st2, logEdit ⟨[], [(getHistoryFilePath "w" "f", .unparsable "oops")], false⟩
        "w" "f" "a" "b" .manual_edit none "u" "t" = .ok (st2, [corruptWarning "f"]) ∧
      recordEntriesAt st2 (getHistoryFilePath "w" "f") =
        some [mkEntry "a" "b" .manual_edit none "u" "t"] ∧
      lookupA st2.records (getHistoryFilePath "w" "f" ++ ".bak") = some (.unparsable "oops")) :=
  ⟨(corruption_recovery "w" "f" "oops" _ (by rw [lookupA]; simp)).1,
   (corruption_recovery "w" "f" "oops" _ (by rw [lookupA]; simp)).2.2
     "a" "b" .manual_edit none "u" "t" (by decide) rfl⟩

/-- C5 counterexample: with the underlying write failing (e.g. disk
full), `logEdit` does **not** catch the failure: the rethrown
`Error("Failed to write edit history")` escapes to the caller, so the
claim that failures inside the `logEdit` path never unwind past the
engine's public operations is false. -/
theorem logEdit_write_failure_escapes :
    logEdit ⟨[], [], true⟩ "w" "f" "a" "b" .manual_edit none "u" "t" =
      .error (.thrown "Failed to write edit history") := rfl

/-- C5 amended: read-path corruption is caught and surfaced as a warning
(see the C4 theorem), but a persistence failure while writing the record
is rethrown as `Error("Failed to write edit history")` and propagates
out of `logEdit` to the caller. -/
theorem logEdit_write_failure_propagates (st : FS) (ws fp old new : String)
    (src : EditSource) (tag : Option String) (u t : String)
    (hne : old ≠ new) (hw : st.writeFails = true)
    (hrec : recordEntriesAt st (getHistoryFilePath ws fp) ≠ none) :
    logEdit st ws fp old new src tag u t =
      .error (.thrown "Failed to write edit history") :=
  logEdit_of_writeFails st ws fp old new src tag u t hne hw hrec

/-- Witness for the amended C5 at a concrete input. -/
theorem logEdit_write_failure_propagates_witness :
    logEdit ⟨[], [], true⟩ "w2" "g" "x" "y" .ai_generated none "u" "t" =
      .error (.thrown "Failed to write edit history") :=
  logEdit_write_failure_propagates ⟨[], [], true⟩ "w2" "g" "x" "y" .ai_generated none "u" "t"
    (by decide) rfl (by decide)

/-- C9 counterexample: on a record that parses as JSON but has no
`entries` array, the append path does **not** treat the log as empty:
`readHistory` returns the unchecked cast and `history.entries.push`
throws a `TypeError`, so the append fails instead of producing a
one-entry log. -/
theorem logEdit_jsonNoEntries_typeError :
    logEdit ⟨[], [(getHistoryFilePath "w" "f", .jsonNoEntries "f")], false⟩
      "w" "f" "a" "b" .manual_edit none "u" "t" = .error .typeError := rfl

/-- C9 amended: the history query path (`getFileHistory`) does treat a
record lacking an `entries` array as an empty log, but the load at the
start of an append does not: `logEdit` on such a record throws a
`TypeError` rather than appending. -/
theorem jsonNoEntries_amended (ws fp fp0 : String) (st : FS)
    (hrec : lookupA st.records (getHistoryFilePath ws fp) = some (.jsonNoEntries fp0)) :
    getFileHistory st ws fp = [] ∧
    (∀ old new src tag u t, old ≠ new →
      logEdit st ws fp old new src tag u t = .error .typeError) := by
  constructor
  · simp [getFileHistory, hrec]
  · intro old new src tag u t hne
    exact logEdit_of_jsonNoEntries st ws fp old new src tag u t fp0 hne hrec

/-- Witness for the amended C9 at a concrete input. -/
theorem jsonNoEntries_amended_witness :
    getFileHistory ⟨[], [(getHistoryFilePath "w2" "g", .jsonNoEntries "g")], false⟩ "w2" "g" = [] ∧
    logEdit ⟨[], [(getHistoryFilePath "w2" "g", .jsonNoEntries "g")], false⟩
      "w2" "g" "x" "y" .manual_edit none "u" "t" = .error .typeError :=
  ⟨(jsonNoEntries_amended "w2" "g" "g" _ (by rw [lookupA]; simp)).1,
   (jsonNoEntries_amended "w2" "g" "g" _ (by rw [lookupA]; simp)).2
     "x" "y" .manual_edit none "u" "t" (by decide)⟩

/-- A placeholder history entry used for concrete restore scenarios. -/
def dummyEntry (snap : String) : EditEntry :=
  ⟨"id", "ts", .manual_edit, "hb", "ha", snap, 0, 0, "", none⟩

/-- C8 counterexample: when the selected entry's `contentSnapshot` is the
literal string `"restore"`, the handler's
`logEdit(path, "restore", snapshot, "manual_edit")` call hits the no-op
check, so **no** fourth entry is appended: the restore succeeds and the
artifact is overwritten, but the log still has exactly 3 entries,
falsifying the claim as stated. -/
theorem restore_no_fourth_entry :
    (restoreHistory
        ⟨[("w/bdd_tests/f.feature", "cur")],
         [(getHistoryFilePath "w" "w/bdd_tests/f.feature",
           .history ⟨"f", [dummyEntry "A", dummyEntry "restore", dummyEntry "B"]⟩)],
         false⟩
        "w" (some "w/bdd_tests/f.feature") 1 "u" "t").map
      (fun r => ((getFileHistory r.1 "w" "w/bdd_tests/f.feature").length,
                 lookupA r.1.features "w/bdd_tests/f.feature")) =
      .ok (3, some "restore") := rfl

/-- C8 amended: provided the selected entry's `contentSnapshot` differs
from the literal string `"restore"` (which the handler passes to
`logEdit` as the before-content), restoring entry index 1 of a 3-entry
log writes that entry's `contentSnapshot` to the artifact and appends a
4th entry with source `manual_edit` whose `contentHashAfter` equals
`hash(entry[1].contentSnapshot)`. -/
theorem restore_appends_fourth_entry (st : FS) (ws p fp0 : String)
    (e0 e1 e2 : EditEntry) (u t : String)
    (hrec : lookupA st.records (getHistoryFilePath ws p) = some (.history ⟨fp0, [e0, e1, e2]⟩))
    (hne : e1.contentSnapshot ≠ "restore")
    (hw : st.writeFails = false) :
    ∃ st', restoreHistory st ws (some p) 1 u t = .ok (st', []) ∧
      lookupA st'.features p = some e1.contentSnapshot ∧
      recordEntriesAt st' (getHistoryFilePath ws p) =
        some [e0, e1, e2, mkEntry "restore" e1.contentSnapshot .manual_edit none u t] ∧
      (mkEntry "restore" e1.contentSnapshot .manual_edit none u t).source = .manual_edit ∧
      (mkEntry "restore" e1.contentSnapshot .manual_edit none u t).contentHashAfter =
        hash e1.contentSnapshot ∧
      (mkEntry "restore" e1.contentSnapshot .manual_edit none u t).contentSnapshot =
        e1.contentSnapshot := by
  have hhist : getFileHistory st ws p = [e0, e1, e2] := by simp [getFileHistory, hrec]
  have hidx : (getFileHistory st ws p)[1]? = some e1 := by rw [hhist]; rfl
  have h4 : retain ([e0, e1, e2] ++ [mkEntry "restore" e1.contentSnapshot .manual_edit none u t]) =
      [e0, e1, e2, mkEntry "restore" e1.contentSnapshot .manual_edit none u t] := by
    rw [retain_of_le _ (by simp [MAX_ENTRIES_PER_FILE])]
    rfl
  have hlog := logEdit_of_history
    ⟨setA st.features p e1.contentSnapshot, st.records, st.writeFails⟩
    ws p "restore" e1.contentSnapshot .manual_edit none u t fp0 [e0, e1, e2]
    (fun hx => hne hx.symm) hw hrec
  rw [h4] at hlog
  have hrest : restoreHistory st ws (some p) 1 u t =
      .ok (⟨setA st.features p e1.contentSnapshot,
            setA st.records (getHistoryFilePath ws p)
              (.history ⟨fp0,
                [e0, e1, e2, mkEntry "restore" e1.contentSnapshot .manual_edit none u t]⟩),
            st.writeFails⟩, []) := by
    rw [restoreHistory, hidx]
    exact hlog
  refine ⟨_, hrest, ?_, ?_, rfl, rfl, by simp [mkEntry]⟩
  · simp [lookupA_setA_self]
  · simp [recordEntriesAt, lookupA_setA_self]

/-- Witness for the amended C8 at a concrete input. -/
theorem restore_appends_fourth_entry_witness :
    ∃ st', restoreHistory
        ⟨[("w/bdd_tests/f.feature", "cur")],
         [(getHistoryFilePath "w" "w/bdd_tests/f.feature",
           .history ⟨"f", [dummyEntry "A", dummyEntry "B", dummyEntry "C"]⟩)],
         false⟩
        "w" (some "w/bdd_tests/f.feature") 1 "u" "t" = .ok (st', []) ∧
      lookupA st'.features "w/bdd_tests/f.feature" = some (dummyEntry "B").contentSnapshot ∧
      recordEntriesAt st' (getHistoryFilePath "w" "w/bdd_tests/f.feature") =
        some [dummyEntry "A", dummyEntry "B", dummyEntry "C",
          mkEntry "restore" (dummyEntry "B").contentSnapshot .manual_edit none "u" "t"] ∧
      (mkEntry "restore" (dummyEntry "B").contentSnapshot .manual_edit none "u" "t").source =
        .manual_edit ∧
      (mkEntry "restore" (dummyEntry "B").contentSnapshot
          .manual_edit none "u" "t").contentHashAfter =
        hash (dummyEntry "B").contentSnapshot ∧
      (mkEntry "restore" (dummyEntry "B").contentSnapshot
          .manual_edit none "u" "t").contentSnapshot =
        (dummyEntry "B").contentSnapshot :=
  restore_appends_fourth_entry _ "w" "w/bdd_tests/f.feature" "f"
    (dummyEntry "A") (dummyEntry "B") (dummyEntry "C") "u" "t"
    (by rw [lookupA]; simp) (by decide) rfl

/-- The entry a deferred `logEdit` call constructs. -/
def entryOfCall (c : LogCall) : EditEntry :=
  mkEntry c.oldContent c.newContent c.source c.versionTag c.uuid c.ts

/-- The record at `p` is either absent (with `es = []`) or a well-formed
history record holding exactly `es`. -/
def storedAs (st : FS) (p : String) (es : List EditEntry) : Prop :=
  (lookupA st.records p = none ∧ es = []) ∨
  ∃ fp1, lookupA st.records p = some (.history ⟨fp1, es⟩)

theorem storedAs_recordEntriesAt (st : FS) (p : String) (es : List EditEntry)
    (h : storedAs st p es) : recordEntriesAt st p = some es := by
  rcases h with ⟨h1, h2⟩ | ⟨fp1, h1⟩
  · subst h2; simp [recordEntriesAt, h1]
  · simp [recordEntriesAt, h1]

/-- Iterating `logEdit` on one path: each successful append pushes the
new entry and retains the newest 50; the net effect over a call list is
appending all constructed entries and truncating once. -/
theorem applyEdits_same_path (ws fp : String) (calls : List LogCall) :
    ∀ (st : FS) (es : List EditEntry),
    st.writeFails = false →
    storedAs st (getHistoryFilePath ws fp) es →
    es.length ≤ MAX_ENTRIES_PER_FILE →
    (∀ c ∈ calls, c.filePath = fp ∧ c.oldContent ≠ c.newContent) →
    ∃ st', applyEdits ws st calls = .ok (st', []) ∧
      st'.writeFails = false ∧
      storedAs st' (getHistoryFilePath ws fp) (retain (es ++ calls.map entryOfCall)) := by
  induction calls with
  | nil =>
    intro st es hw hst hlen _
    refine ⟨st, rfl, hw, ?_⟩
    rw [List.map_nil, List.append_nil, retain_of_le es hlen]
    exact hst
  | cons c rest ih =>
    intro st es hw hst hlen hcalls
    obtain ⟨hcfp, hcne⟩ := hcalls c (List.mem_cons_self c rest)
    have hrest : ∀ c' ∈ rest, c'.filePath = fp ∧ c'.oldContent ≠ c'.newContent :=
      fun c' hc' => hcalls c' (List.mem_cons_of_mem c hc')
    have hstep : ∃ st1, logEdit st ws c.filePath c.oldContent c.newContent c.source
        c.versionTag c.uuid c.ts = .ok (st1, []) ∧
        st1.writeFails = false ∧
        storedAs st1 (getHistoryFilePath ws fp) (retain (es ++ [entryOfCall c])) := by
      rcases hst with ⟨h1, h2⟩ | ⟨fp1, h1⟩
      · subst h2
        rw [hcfp]
        exact ⟨_, logEdit_of_missing st ws fp c.oldContent c.newContent c.source
            c.versionTag c.uuid c.ts hcne hw h1, hw,
          Or.inr ⟨fp, by simp [lookupA_setA_self, entryOfCall]⟩⟩
      · rw [hcfp]
        exact ⟨_, logEdit_of_history st ws fp c.oldContent c.newContent c.source
            c.versionTag c.uuid c.ts fp1 es hcne hw h1, hw,
          Or.inr ⟨fp1, by simp [lookupA_setA_self, entryOfCall]⟩⟩
    obtain ⟨st1, hlog, hw1, hst1⟩ := hstep
    have hlen1 : (retain (es ++ [entryOfCall c])).length ≤ MAX_ENTRIES_PER_FILE := by
      rw [retain_length]
      omega
    obtain ⟨st', happ, hw', hst'⟩ := ih st1 (retain (es ++ [entryOfCall c])) hw1 hst1 hlen1 hrest
    refine ⟨st', ?_, hw', ?_⟩
    · simp only [applyEdits, hlog, happ, Except.map, List.nil_append]
    · rw [retain_retain_append, List.append_assoc] at hst'
      simpa using hst'

/-- C3: starting from no record, `N` successful appends to one artifact
leave the stored log holding exactly the newest `min N 50` entries, in
append order, oldest evicted first; for `N = 51` appends the log length
is exactly 50 and the survivors are the 50 most recent. -/
theorem retention_cap (ws fp : String) (st : FS) (calls : List LogCall)
    (hw : st.writeFails = false)
    (hrec : lookupA st.records (getHistoryFilePath ws fp) = none)
    (hcalls : ∀ c ∈ calls, c.filePath = fp ∧ c.oldContent ≠ c.newContent) :
    ∃ st', applyEdits ws st calls = .ok (st', []) ∧
      recordEntriesAt st' (getHistoryFilePath ws fp) =
        some ((calls.map entryOfCall).drop (calls.length - MAX_ENTRIES_PER_FILE)) ∧
      ((calls.map entryOfCall).drop (calls.length - MAX_ENTRIES_PER_FILE)).length =
        min calls.length MAX_ENTRIES_PER_FILE := by
  obtain ⟨st', happ, _, hst'⟩ := applyEdits_same_path ws fp calls st []
    hw (Or.inl ⟨hrec, rfl⟩) (by simp) hcalls
  refine ⟨st', happ, ?_, ?_⟩
  · have h1 := storedAs_recordEntriesAt st' (getHistoryFilePath ws fp) _ hst'
    rw [h1]
    rw [List.nil_append, retain_eq_drop, List.length_map]
  · rw [List.length_drop, List.length_map]
    omega

/-- Witness for C3 at a concrete input: 51 successful appends of the
same edit to one artifact. -/
theorem retention_cap_witness :
    ∃ st', applyEdits "w" ⟨[], [], false⟩
        (List.replicate 51 ⟨"f", "a", "b", .manual_edit, none, "u", "t"⟩) = .ok (st', []) ∧
      recordEntriesAt st' (getHistoryFilePath "w" "f") =
        some (((List.replicate 51
            (⟨"f", "a", "b", .manual_edit, none, "u", "t"⟩ : LogCall)).map entryOfCall).drop
          ((List.replicate 51
            (⟨"f", "a", "b", .manual_edit, none, "u", "t"⟩ : LogCall)).length -
            MAX_ENTRIES_PER_FILE)) ∧
      (((List.replicate 51
          (⟨"f", "a", "b", .manual_edit, none, "u", "t"⟩ : LogCall)).map entryOfCall).drop
        ((List.replicate 51
          (⟨"f", "a", "b", .manual_edit, none, "u", "t"⟩ : LogCall)).length -
          MAX_ENTRIES_PER_FILE)).length =
      min (List.replicate 51
        (⟨"f", "a", "b", .manual_edit, none, "u", "t"⟩ : LogCall)).length
        MAX_ENTRIES_PER_FILE :=
  retention_cap "w" "f" ⟨[], [], false⟩
    (List.replicate 51 ⟨"f", "a", "b", .manual_edit, none, "u", "t"⟩)
    rfl rfl (by decide)

/-- The uncapped positional scan from index `i` for `j` indices: the
added/removed counts and summary lines the loop body would emit with no
line cap (§4.2's walk, one classification per index). -/
def scanFrom (ol nl : List String) : Nat → Nat → Nat × Nat × List String
  | _, 0 => (0, 0, [])
  | i, j + 1 =>
    let s := diffStep ol[i]? nl[i]?
    let r := scanFrom ol nl (i + 1) j
    (s.1 + r.1, s.2.1 + r.2.1, s.2.2 ++ r.2.2)

theorem diffStep_lines_le (o n : Option String) : (diffStep o n).2.2.length ≤ 2 := by
  rcases o with _ | ov <;> rcases n with _ | nv <;> simp [diffStep]
  split <;> simp

theorem diffStep_two_isSome (o n : Option String)
    (h : (diffStep o n).2.2.length = 2) : o ≠ none ∧ n ≠ none := by
  rcases o with _ | ov
  · rcases n with _ | nv
    · simp [diffStep] at h
    · simp [diffStep] at h
  · rcases n with _ | nv
    · simp [diffStep] at h
    · exact ⟨by simp, by simp⟩

theorem diffStep_even_of_both (ov nv : String) :
    (diffStep (some ov) (some nv)).2.2.length % 2 = 0 := by
  simp [diffStep]
  split <;> simp

/-- The loop computes exactly a prefix of the uncapped scan, and stops
early only when the cap has been reached. -/
theorem diffAux_spec (ol nl : List String) : ∀ (fuel i a r : Nat) (acc : List String),
    ∃ j, j ≤ fuel ∧
      diffAux ol nl i fuel a r acc =
        (a + (scanFrom ol nl i j).1, r + (scanFrom ol nl i j).2.1,
         acc ++ (scanFrom ol nl i j).2.2) ∧
      (j < fuel → MAX_DIFF_LINES ≤ (acc ++ (scanFrom ol nl i j).2.2).length) := by
  intro fuel
  induction fuel with
  | zero =>
    intro i a r acc
    exact ⟨0, Nat.le_refl 0, by simp [diffAux, scanFrom], fun h => absurd h (by omega)⟩
  | succ fuel ih =>
    intro i a r acc
    by_cases hcap : MAX_DIFF_LINES ≤ (acc ++ (diffStep ol[i]? nl[i]?).2.2).length
    · refine ⟨1, by omega, ?_, ?_⟩
      · rw [diffAux]
        simp only [hcap, if_true, scanFrom]
        simp
      · intro _
        simpa [scanFrom] using hcap
    · obtain ⟨j, hj, heq, hcond⟩ := ih (i + 1)
        (a + (diffStep ol[i]? nl[i]?).1) (r + (diffStep ol[i]? nl[i]?).2.1)
        (acc ++ (diffStep ol[i]? nl[i]?).2.2)
      refine ⟨j + 1, by omega, ?_, ?_⟩
      · rw [diffAux]
        simp only [hcap, if_false]
        rw [heq]
        simp [scanFrom, Nat.add_assoc]
      · intro hlt
        have h2 := hcond (by omega)
        simpa [scanFrom] using h2

/-- The emitted summary never exceeds the cap: during the both-present
phase the line list has even length (a changed pair emits two lines), so
the break at `≥ 50` lands on exactly 50; afterwards lines are emitted
one at a time. -/
theorem diffAux_cap (ol nl : List String) : ∀ (fuel i a r : Nat) (acc : List String),
    acc.length < MAX_DIFF_LINES →
    (i < ol.length ∧ i < nl.length → acc.length % 2 = 0) →
    (diffAux ol nl i fuel a r acc).2.2.length ≤ MAX_DIFF_LINES := by
  intro fuel
  induction fuel with
  | zero =>
    intro i a r acc h1 _
    rw [diffAux]
    show acc.length ≤ MAX_DIFF_LINES
    omega
  | succ fuel ih =>
    intro i a r acc h1 h2
    have hsl := diffStep_lines_le ol[i]? nl[i]?
    by_cases hcap : MAX_DIFF_LINES ≤ (acc ++ (diffStep ol[i]? nl[i]?).2.2).length
    · rw [diffAux]
      simp only [hcap, if_true]
      simp only [List.length_append]
      by_cases h3 : (diffStep ol[i]? nl[i]?).2.2.length = 2
      · obtain ⟨ho, hn⟩ := diffStep_two_isSome _ _ h3
        have hio : i < ol.length := by
          by_contra hc
          exact ho (List.getElem?_eq_none (by omega))
        have hin : i < nl.length := by
          by_contra hc
          exact hn (List.getElem?_eq_none (by omega))
        have heven := h2 ⟨hio, hin⟩
        have hM : MAX_DIFF_LINES = 50 := rfl
        omega
      · have hM : MAX_DIFF_LINES = 50 := rfl
        omega
    · rw [diffAux]
      simp only [hcap, if_false]
      apply ih
      · omega
      · intro ⟨hio, hin⟩
        have hio' : i < ol.length := by omega
        have hin' : i < nl.length := by omega
        have heven := h2 ⟨hio', hin'⟩
        have hstep : (diffStep ol[i]? nl[i]?).2.2.length % 2 = 0 := by
          rcases hko : ol[i]? with _ | ov
          · have := List.getElem?_eq_none_iff.mp hko
            omega
          · rcases hkn : nl[i]? with _ | nv
            · have := List.getElem?_eq_none_iff.mp hkn
              omega
            · exact diffStep_even_of_both ov nv
        simp only [List.length_append]
        omega

/-- C6: when the full positional comparison would emit more than the cap
of summary lines, `computeDiff` returns at most `MAX_DIFF_LINES` summary
lines, and its `linesAdded`/`linesRemoved` are the counts of exactly the
scanned prefix of indices (a strict prefix of the full scan), not of the
full difference. -/
theorem computeDiff_cap_prefix (oldText newText : String)
    (hbig : MAX_DIFF_LINES <
      (scanFrom (jsSplit (Char.ofNat 10) oldText) (jsSplit (Char.ofNat 10) newText) 0
        (max (jsSplit (Char.ofNat 10) oldText).length
          (jsSplit (Char.ofNat 10) newText).length)).2.2.length) :
    ∃ k, k < max (jsSplit (Char.ofNat 10) oldText).length
          (jsSplit (Char.ofNat 10) newText).length ∧
      computeDiff oldText newText =
        ⟨(scanFrom (jsSplit (Char.ofNat 10) oldText) (jsSplit (Char.ofNat 10) newText) 0 k).1,
         (scanFrom (jsSplit (Char.ofNat 10) oldText) (jsSplit (Char.ofNat 10) newText) 0 k).2.1,
         joinWith "\n"
           (scanFrom (jsSplit (Char.ofNat 10) oldText) (jsSplit (Char.ofNat 10) newText) 0 k).2.2⟩ ∧
      (scanFrom (jsSplit (Char.ofNat 10) oldText) (jsSplit (Char.ofNat 10) newText) 0 k).2.2.length ≤
        MAX_DIFF_LINES := by
  obtain ⟨j, hj, heq, hcond⟩ := diffAux_spec (jsSplit (Char.ofNat 10) oldText)
    (jsSplit (Char.ofNat 10) newText)
    (max (jsSplit (Char.ofNat 10) oldText).length (jsSplit (Char.ofNat 10) newText).length)
    0 0 0 []
  have hcap := diffAux_cap (jsSplit (Char.ofNat 10) oldText) (jsSplit (Char.ofNat 10) newText)
    (max (jsSplit (Char.ofNat 10) oldText).length (jsSplit (Char.ofNat 10) newText).length)
    0 0 0 [] (by simp [MAX_DIFF_LINES]) (by simp)
  have hdl : diffLines oldText newText =
      (0 + (scanFrom (jsSplit (Char.ofNat 10) oldText) (jsSplit (Char.ofNat 10) newText) 0 j).1,
       0 + (scanFrom (jsSplit (Char.ofNat 10) oldText) (jsSplit (Char.ofNat 10) newText) 0 j).2.1,
       [] ++ (scanFrom (jsSplit (Char.ofNat 10) oldText)
         (jsSplit (Char.ofNat 10) newText) 0 j).2.2) := heq
  have hlen : (scanFrom (jsSplit (Char.ofNat 10) oldText)
      (jsSplit (Char.ofNat 10) newText) 0 j).2.2.length ≤ MAX_DIFF_LINES := by
    have hd : (diffLines oldText newText).2.2.length ≤ MAX_DIFF_LINES := hcap
    rw [hdl] at hd
    simpa using hd
  have hjlt : j < max (jsSplit (Char.ofNat 10) oldText).length
      (jsSplit (Char.ofNat 10) newText).length := by
    rcases Nat.lt_or_ge j (max (jsSplit (Char.ofNat 10) oldText).length
      (jsSplit (Char.ofNat 10) newText).length) with h | h
    · exact h
    · have hje : j = max (jsSplit (Char.ofNat 10) oldText).length
          (jsSplit (Char.ofNat 10) newText).length := by omega
      rw [hje] at hlen
      omega
  refine ⟨j, hjlt, ?_, hlen⟩
  have hc : computeDiff oldText newText =
      ⟨(diffLines oldText newText).1, (diffLines oldText newText).2.1,
       joinWith "\n" (diffLines oldText newText).2.2⟩ := rfl
  rw [hc, hdl]
  simp

/-- Witness for C6 at a concrete input: an empty-ish old text against 60
fresh lines differs at more than 50 positions. -/
theorem computeDiff_cap_prefix_witness :
    ∃ k, k < max (jsSplit (Char.ofNat 10) "x").length
          (jsSplit (Char.ofNat 10) (joinWith "\n" (List.replicate 60 "a"))).length ∧
      computeDiff "x" (joinWith "\n" (List.replicate 60 "a")) =
        ⟨(scanFrom (jsSplit (Char.ofNat 10) "x")
            (jsSplit (Char.ofNat 10) (joinWith "\n" (List.replicate 60 "a"))) 0 k).1,
         (scanFrom (jsSplit (Char.ofNat 10) "x")
            (jsSplit (Char.ofNat 10) (joinWith "\n" (List.replicate 60 "a"))) 0 k).2.1,
         joinWith "\n"
           (scanFrom (jsSplit (Char.ofNat 10) "x")
             (jsSplit (Char.ofNat 10) (joinWith "\n" (List.replicate 60 "a"))) 0 k).2.2⟩ ∧
      (scanFrom (jsSplit (Char.ofNat 10) "x")
          (jsSplit (Char.ofNat 10) (joinWith "\n" (List.replicate 60 "a"))) 0 k).2.2.length ≤
        MAX_DIFF_LINES :=
  computeDiff_cap_prefix "x" (joinWith "\n" (List.replicate 60 "a")) (by decide)

set_option maxRecDepth 100000 in
/-- C7: the reconciliation scenario.  Snapshot: `a.feature ↦ "X"`,
`c.feature ↦ "C"`, `d.feature ↦ "D"`.  Post-rewrite artifact set:
`a ↦ "Y"`, `b ↦ "Z"`, `c ↦ "C"`.  Reconciling produces exactly one
modified entry for `a` (before `"X"`, after `"Y"`), one creation entry
for `b` (before `""`, after `"Z"`), no entry for the unchanged `c`, one
deletion entry for the snapshot-only `d` (after `""`), all with source
`ai_generated`, and no record for any other path. -/
theorem reconcile_scenario (gen : Nat → String × String)
    (_hXY : hash "X" ≠ hash "Y") :
    ∃ st' warns,
      logGenerationChanges
        ⟨[("w/bdd_tests/a.feature", "Y"), ("w/bdd_tests/b.feature", "Z"),
          ("w/bdd_tests/c.feature", "C")], [], false⟩
        "w"
        [("w/bdd_tests/a.feature", ⟨hash "X", "X"⟩),
         ("w/bdd_tests/c.feature", ⟨hash "C", "C"⟩),
         ("w/bdd_tests/d.feature", ⟨hash "D", "D"⟩)]
        gen = .ok (st', warns) ∧
      (∃ e, getFileHistory st' "w" "w/bdd_tests/a.feature" = [e] ∧
        e.source = .ai_generated ∧ e.contentHashBefore = hash "X" ∧
        e.contentHashAfter = hash "Y" ∧ e.contentSnapshot = "Y") ∧
      (∃ e, getFileHistory st' "w" "w/bdd_tests/b.feature" = [e] ∧
        e.source = .ai_generated ∧ e.contentHashBefore = hash "" ∧
        e.contentHashAfter = hash "Z" ∧ e.contentSnapshot = "Z") ∧
      getFileHistory st' "w" "w/bdd_tests/c.feature" = [] ∧
      (∃ e, getFileHistory st' "w" "w/bdd_tests/d.feature" = [e] ∧
        e.source = .ai_generated ∧ e.contentHashBefore = hash "D" ∧
        e.contentHashAfter = hash "" ∧ e.contentSnapshot = "") ∧
      st'.records.map (fun kv => kv.1) =
        [getHistoryFilePath "w" "w/bdd_tests/a.feature",
         getHistoryFilePath "w" "w/bdd_tests/b.feature",
         getHistoryFilePath "w" "w/bdd_tests/d.feature"] := by
  refine ⟨⟨[("w/bdd_tests/a.feature", "Y"), ("w/bdd_tests/b.feature", "Z"),
            ("w/bdd_tests/c.feature", "C")],
           [(getHistoryFilePath "w" "w/bdd_tests/a.feature",
             .history ⟨"w/bdd_tests/a.feature",
               [mkEntry "X" "Y" .ai_generated none (gen 0).1 (gen 0).2]⟩),
            (getHistoryFilePath "w" "w/bdd_tests/b.feature",
             .history ⟨"w/bdd_tests/b.feature",
               [mkEntry "" "Z" .ai_generated none (gen 1).1 (gen 1).2]⟩),
            (getHistoryFilePath "w" "w/bdd_tests/d.feature",
             .history ⟨"w/bdd_tests/d.feature",
               [mkEntry "D" "" .ai_generated none (gen 2).1 (gen 2).2]⟩)],
           false⟩, [], rfl,
    ⟨mkEntry "X" "Y" .ai_generated none (gen 0).1 (gen 0).2, rfl, rfl, rfl, rfl, rfl⟩,
    ⟨mkEntry "" "Z" .ai_generated none (gen 1).1 (gen 1).2, rfl, rfl, rfl, rfl, rfl⟩,
    rfl,
    ⟨mkEntry "D" "" .ai_generated none (gen 2).1 (gen 2).2, rfl, rfl, rfl, rfl, rfl⟩,
    rfl⟩

set_option maxRecDepth 100000 in
/-- Witness for C7 at a concrete input: the hash hypothesis is
discharged by computing both digests. -/
theorem reconcile_scenario_witness :
    ∃ st' warns,
      logGenerationChanges
        ⟨[("w/bdd_tests/a.feature", "Y"), ("w/bdd_tests/b.feature", "Z"),
          ("w/bdd_tests/c.feature", "C")], [], false⟩
        "w"
        [("w/bdd_tests/a.feature", ⟨hash "X", "X"⟩),
         ("w/bdd_tests/c.feature", ⟨hash "C", "C"⟩),
         ("w/bdd_tests/d.feature", ⟨hash "D", "D"⟩)]
        (fun _ => ("u", "t")) = .ok (st', warns) ∧
      (∃ e, getFileHistory st' "w" "w/bdd_tests/a.feature" = [e] ∧
        e.source = .ai_generated ∧ e.contentHashBefore = hash "X" ∧
        e.contentHashAfter = hash "Y" ∧ e.contentSnapshot = "Y") ∧
      (∃ e, getFileHistory st' "w" "w/bdd_tests/b.feature" = [e] ∧
        e.source = .ai_generated ∧ e.contentHashBefore = hash "" ∧
        e.contentHashAfter = hash "Z" ∧ e.contentSnapshot = "Z") ∧
      getFileHistory st' "w" "w/bdd_tests/c.feature" = [] ∧
      (∃ e, getFileHistory st' "w" "w/bdd_tests/d.feature" = [e] ∧
        e.source = .ai_generated ∧ e.contentHashBefore = hash "D" ∧
        e.contentHashAfter = hash "" ∧ e.contentSnapshot = "") ∧
      st'.records.map (fun kv => kv.1) =
        [getHistoryFilePath "w" "w/bdd_tests/a.feature",
         getHistoryFilePath "w" "w/bdd_tests/b.feature",
         getHistoryFilePath "w" "w/bdd_tests/d.feature"] :=
  reconcile_scenario (fun _ => ("u", "t")) (by decide)

/-- Every element of `numbered n l` carries an element of `l`. -/
theorem mem_numbered {α : Type} : ∀ (l : List α) (n : Nat) (ix : Nat × α),
    ix ∈ numbered n l → ix.2 ∈ l := by
  intro l
  induction l with
  | nil => intro n ix h; simp [numbered] at h
  | cons x xs ih =>
    intro n ix h
    rw [numbered] at h
    rcases List.mem_cons.mp h with h1 | h1
    · rw [h1]; exact List.mem_cons_self x xs
    · exact List.mem_cons_of_mem x (ih (n + 1) ix h1)

/-- Looking up a key that fails a predicate all stored keys satisfy
finds nothing. -/
theorem lookupA_eq_none_of_pred {α : Type} (pred : String → Bool) :
    ∀ (l : List (String × α)) (p : String),
    (∀ q ∈ l, pred q.1 = true) → pred p = false → lookupA l p = none := by
  intro l
  induction l with
  | nil => intro p _ _; rfl
  | cons kv rest ih =>
    intro p hall hp
    rw [lookupA]
    have hkv := hall kv (List.mem_cons_self kv rest)
    by_cases h : kv.1 = p
    · rw [h] at hkv; rw [hkv] at hp; simp at hp
    · rw [if_neg h]
      exact ih p (fun q hq => hall q (List.mem_cons_of_mem kv hq)) hp

/-- Every path the snapshot records ends in `.feature`. -/
theorem snapshot_keys (st : FS) (ws : String) :
    ∀ q ∈ snapshotBeforeGeneration st ws, jsEndsWith q.1 ".feature" = true := by
  intro q hq
  simp only [snapshotBeforeGeneration, List.mem_map, List.mem_filter] at hq
  obtain ⟨pc, ⟨_, hpc⟩, hq2⟩ := hq
  rw [← hq2]
  simp only [Bool.and_eq_true] at hpc
  exact hpc.2

/-- Every `logEdit` call the reconciliation performs targets a
`.feature` path, provided the snapshot's keys do. -/
theorem generationCalls_feature_paths (st : FS) (ws : String)
    (pre : List (String × SnapEntry)) (gen : Nat → String × String)
    (hpre : ∀ q ∈ pre, jsEndsWith q.1 ".feature" = true) :
    ∀ c ∈ generationCalls st ws pre gen, jsEndsWith c.filePath ".feature" = true := by
  intro c hc
  simp only [generationCalls, List.mem_map] at hc
  obtain ⟨ic, hic, hc2⟩ := hc
  rw [← hc2]
  simp only
  have h2 := mem_numbered _ 0 ic hic
  simp only [List.mem_append, List.mem_filterMap, List.mem_filter] at h2
  rcases h2 with ⟨pc, ⟨_, hpc⟩, hg⟩ | ⟨q, hq, hg⟩
  · have hfeat : jsEndsWith pc.1 ".feature" = true := by
      simp only [Bool.and_eq_true] at hpc
      exact hpc.2
    split at hg
    · have hg2 : (pc.1, "", pc.2) = ic.2 := Option.some.inj hg
      rw [← hg2]
      exact hfeat
    · split at hg
      · simp at hg
      · have hg2 := Option.some.inj hg
        rw [← hg2]
        exact hfeat
  · split at hg
    · simp at hg
    · have hg2 : (q.1, q.2.content, "") = ic.2 := Option.some.inj hg
      rw [← hg2]
      exact hpre q hq

/-- C10: only `.feature` paths are ever snapshotted or reconciled: the
snapshot records no entry for a path without the `.feature` suffix, and
(provided the snapshot's keys all carry the suffix, as
`snapshotBeforeGeneration` guarantees) every `logEdit` call the
reconciliation performs targets a `.feature` path. -/
theorem only_feature_paths (st : FS) (ws p : String)
    (pre : List (String × SnapEntry)) (gen : Nat → String × String)
    (hp : jsEndsWith p ".feature" = false)
    (hpre : pre.all (fun q => jsEndsWith q.1 ".feature") = true) :
    (snapshotBeforeGeneration st ws).all (fun q => jsEndsWith q.1 ".feature") = true ∧
    lookupA (snapshotBeforeGeneration st ws) p = none ∧
    (generationCalls st ws pre gen).all (fun c => jsEndsWith c.filePath ".feature") = true := by
  have hsnap := snapshot_keys st ws
  have hpre' : ∀ q ∈ pre, jsEndsWith q.1 ".feature" = true :=
    fun q hq => List.all_eq_true.mp hpre q hq
  exact ⟨List.all_eq_true.mpr hsnap,
    lookupA_eq_none_of_pred (fun k => jsEndsWith k ".feature") _ p hsnap hp,
    List.all_eq_true.mpr (generationCalls_feature_paths st ws pre gen hpre')⟩

/-- Witness for C10 at a concrete input: a `.txt` file under the
artifact root is neither snapshotted nor reconciled. -/
theorem only_feature_paths_witness :
    (snapshotBeforeGeneration
        ⟨[("w/bdd_tests/x.txt", "hi"), ("w/bdd_tests/a.feature", "A")], [], false⟩ "w").all
      (fun q => jsEndsWith q.1 ".feature") = true ∧
    lookupA (snapshotBeforeGeneration
        ⟨[("w/bdd_tests/x.txt", "hi"), ("w/bdd_tests/a.feature", "A")], [], false⟩ "w")
      "w/bdd_tests/x.txt" = none ∧
    (generationCalls
        ⟨[("w/bdd_tests/x.txt", "hi"), ("w/bdd_tests/a.feature", "A")], [], false⟩ "w"
        [] (fun _ => ("u", "t"))).all
      (fun c => jsEndsWith c.filePath ".feature") = true :=
  only_feature_paths
    ⟨[("w/bdd_tests/x.txt", "hi"), ("w/bdd_tests/a.feature", "A")], [], false⟩
    "w" "w/bdd_tests/x.txt" [] (fun _ => ("u", "t")) (by decide) (by decide)

end TestGenie
